import Mathlib

/-!
Verification of the runtime vertex-attribute interleaving engine
(`RuntimeVertexBuilder` / `RuntimeVertexIter` in
`pipeline/graphics/vertex_input/runtime.rs`).

The Rust code is shallowly embedded: byte slices become `List Nat`,
`usize` arithmetic becomes `Nat` arithmetic, and every Rust panic
(`expect`, `assert!`, `unwrap`, division by zero, out-of-range `Vec`
indexing on unreachable states) is modelled by `Option`, with `none`
standing for the panic.
-/

namespace VulkanoRuntime

/-- A vertex element format.  The source only ever consults
`Format::block_size()`, which returns `Option<u64>`; we embed a format as
that observation. -/
structure Format where
  blockSize : Option Nat
deriving DecidableEq, Repr

/-- `VertexAttribute { name, format }` from the source. -/
structure VertexAttribute where
  name : String
  format : Format
deriving DecidableEq, Repr

/-- `VertexMemberInfo { offset, format, num_elements }` as used by the
source (declared in the sibling module). -/
structure VertexMemberInfo where
  offset : Nat
  format : Format
  num_elements : Nat
deriving DecidableEq, Repr

/-- `VertexInputRate`; the builder only uses the `Vertex` variant. -/
inductive VertexInputRate where
  | Vertex
  | Instance
deriving DecidableEq, Repr

/-- Modelled from the spec: `VertexBufferInfo.members` is "a mapping from
name to (offset, format, element_count)" (the concrete map type lives in
the sibling module, outside the given sources).  Inserting a pair into
the map replaces any existing entry with the same name, as a hash map
built from an iterator of pairs does. -/
def mapInsert (m : List (String × VertexMemberInfo)) (k : String)
    (v : VertexMemberInfo) : List (String × VertexMemberInfo) :=
  if m.any (fun p => p.1 = k) then
    m.map (fun p => if p.1 = k then (k, v) else p)
  else
    m ++ [(k, v)]

/-- Collect a list of `(name, info)` pairs into the members map, in
order; later pairs overwrite earlier ones with the same name. -/
def collectMembers (ps : List (String × VertexMemberInfo)) :
    List (String × VertexMemberInfo) :=
  ps.foldl (fun m p => mapInsert m p.1 p.2) []

/-- `VertexBufferInfo { members, stride, input_rate }`. -/
structure VertexBufferInfo where
  members : List (String × VertexMemberInfo)
  stride : Nat
  input_rate : VertexInputRate
deriving DecidableEq, Repr

/-- `RuntimeVertexBuilder`: registered members, the borrowed byte slices
paired with their element (field) byte size, and the running offset. -/
structure RuntimeVertexBuilder where
  members : List (String × VertexMemberInfo)
  slices : List (List Nat × Nat)
  offset : Nat
deriving DecidableEq, Repr

/-- `RuntimeVertexBuilder::new()`. -/
def RuntimeVertexBuilder.new : RuntimeVertexBuilder :=
  { members := [], slices := [], offset := 0 }

/-- `RuntimeVertexBuilder::add`.  `field_size` is `size_of::<T>()` and
`data` is `data.as_bytes()`.  The `expect` on a missing block size and
the divisibility `assert!` are the `none` results; Rust's `%` on a zero
`format_size` panics, which is also `none`. -/
def RuntimeVertexBuilder.add (b : RuntimeVertexBuilder)
    (attrib : VertexAttribute) (data : List Nat) (field_size : Nat) :
    Option RuntimeVertexBuilder :=
  match attrib.format.blockSize with
  | none => none
  | some format_size =>
    if format_size = 0 then none
    else
      let num_elements := field_size / format_size
      let remainder := field_size % format_size
      if remainder = 0 then
        some { members := b.members ++
                 [(attrib.name,
                   { offset := b.offset, format := attrib.format,
                     num_elements := num_elements })],
               slices := b.slices ++ [(data, field_size)],
               offset := b.offset + field_size }
      else none

/-- The `RuntimeVertexIter` state. -/
structure RuntimeVertexIter where
  member_ranges : List (Nat × Nat)
  member_slices : List (List Nat × Nat)
  stride : Nat
  data_length : Nat
  data_index : Nat
  member_index : Nat
deriving DecidableEq, Repr

/-- `RuntimeVertexBuilder::build`.  `none` models the two panics: the
`unwrap` of `min()` over an empty iterator, and `data.len() / size`
dividing by zero. -/
def RuntimeVertexBuilder.build (b : RuntimeVertexBuilder) :
    Option (RuntimeVertexIter × VertexBufferInfo) := do
  let counts ← b.slices.mapM
    (fun s => if s.2 = 0 then none else some (s.1.length / s.2))
  let num_vertices ← counts.min?
  let info : VertexBufferInfo :=
    { members := collectMembers b.members
      stride := b.offset
      input_rate := VertexInputRate.Vertex }
  let data_length := (b.slices.map (fun s => s.2 * num_vertices)).sum
  let member_max :=
    (b.members.drop 1).map (fun m => m.2.offset) ++ [b.offset]
  let member_min := b.members.map (fun m => m.2.offset)
  let member_ranges := member_min.zip member_max
  some ({ member_ranges := member_ranges
          member_slices := b.slices
          stride := b.offset
          data_length := data_length
          data_index := 0
          member_index := 0 }, info)

/-- The member-index update step of `RuntimeVertexIter::next` (lines
142-149): advance the cached index by one, wrapping to zero at the end,
exactly when the cached range no longer contains the current in-record
offset. -/
def cacheSelect (ranges : List (Nat × Nat)) (mi off : Nat) : Nat :=
  if (ranges.getD mi (0, 0)).2 ≤ off ∨ off < (ranges.getD mi (0, 0)).1 then
    if mi + 1 = ranges.length then 0 else mi + 1
  else mi

/-- `RuntimeVertexIter::next`.  Out-of-range `Vec`/slice indexing is
embedded with `getD` (the default is never reached from a built
iterator). -/
def RuntimeVertexIter.next (it : RuntimeVertexIter) :
    Option (Nat × RuntimeVertexIter) :=
  if it.data_length = it.data_index then none
  else
    let vertex_index := it.data_index / it.stride
    let data_offset := it.data_index % it.stride
    let mi := cacheSelect it.member_ranges it.member_index data_offset
    let r := it.member_ranges.getD mi (0, 0)
    let field_size := r.2 - r.1
    let member_offset := data_offset - r.1
    let data :=
      (it.member_slices.getD mi ([], 0)).1.getD
        (vertex_index * field_size + member_offset) 0
    some (data,
      { it with data_index := it.data_index + 1, member_index := mi })

/-- `ExactSizeIterator::len` for `RuntimeVertexIter`. -/
def RuntimeVertexIter.remaining (it : RuntimeVertexIter) : Nat :=
  it.data_length - it.data_index

/-- Pull from the iterator up to `fuel` times, returning the emitted
bytes and the final iterator state. -/
def RuntimeVertexIter.run (it : RuntimeVertexIter) :
    Nat → List Nat × RuntimeVertexIter
  | 0 => ([], it)
  | fuel + 1 =>
    match it.next with
    | none => ([], it)
    | some (b, it') =>
      let r := it'.run fuel
      (b :: r.1, r.2)

/-- One registration request: the attribute, the source bytes and the
element byte size. -/
structure Reg where
  attr : VertexAttribute
  data : List Nat
  fieldSize : Nat
deriving DecidableEq, Repr

/-- A registration that `add` accepts: the format has a block size, the
block size is nonzero, and the element size divides evenly. -/
def Reg.okb (r : Reg) : Bool :=
  match r.attr.format.blockSize with
  | none => false
  | some s => decide (0 < s) && decide (r.fieldSize % s = 0)

/-- Fold a list of registrations through `add`. -/
def addAll (b : RuntimeVertexBuilder) (regs : List Reg) :
    Option RuntimeVertexBuilder :=
  regs.foldlM (fun b r => b.add r.attr r.data r.fieldSize) b

/-! ## Specification-side definitions

`ms : List (List Nat × Nat)` is the list of `(source_bytes, field_size)`
pairs, in registration order. -/

/-- The stride: the sum of all field byte sizes. -/
def strideOf (ms : List (List Nat × Nat)) : Nat := (ms.map (·.2)).sum

/-- Sum of the field sizes of the first `i` members: the byte offset of
member `i` within a record. -/
def sumTake (ms : List (List Nat × Nat)) (i : Nat) : Nat :=
  ((ms.take i).map (·.2)).sum

/-- The member byte ranges `[offset_i, offset_{i+1})`, starting at
`base`. -/
def rangesFrom (base : Nat) : List (List Nat × Nat) → List (Nat × Nat)
  | [] => []
  | m :: ms => (base, base + m.2) :: rangesFrom (base + m.2) ms

/-- Direct linear search: index of the member whose byte range contains
in-record offset `off`. -/
def memberIdx : List (List Nat × Nat) → Nat → Nat
  | [], _ => 0
  | m :: ms, off => if off < m.2 then 0 else memberIdx ms (off - m.2) + 1

/-- Direct linear search: the byte of vertex `v` at in-record offset
`off`. -/
def byteAt : List (List Nat × Nat) → Nat → Nat → Nat
  | [], _, _ => 0
  | m :: ms, v, off =>
    if off < m.2 then m.1.getD (v * m.2 + off) 0
    else byteAt ms v (off - m.2)

/-- The interleaved byte stream for `n` vertices: vertex-major, then
member-major in registration order, each member contributing its source
bytes `[v * size, (v+1) * size)`. -/
def interleave (ms : List (List Nat × Nat)) (n : Nat) : List Nat :=
  (List.range n).flatMap
    (fun v => ms.flatMap (fun m => (m.1.drop (v * m.2)).take m.2))

/-- The slices a list of registrations contributes to the builder. -/
def slicesOf (regs : List Reg) : List (List Nat × Nat) :=
  regs.map (fun r => (r.data, r.fieldSize))

/-- Total byte size of one record formed by the registrations. -/
def totalSize (regs : List Reg) : Nat := (regs.map (·.fieldSize)).sum

/-- The members the builder accumulates, starting at offset `base`. -/
def membersFrom (base : Nat) : List Reg → List (String × VertexMemberInfo)
  | [] => []
  | r :: rs =>
    (r.attr.name,
      { offset := base, format := r.attr.format,
        num_elements := r.fieldSize / (r.attr.format.blockSize.getD 0) }) ::
      membersFrom (base + r.fieldSize) rs

/-- The vertex count `build` computes: the minimum over members of
`source_bytes.len() / field_size`. -/
def minCount (ms : List (List Nat × Nat)) : Option Nat :=
  (ms.map (fun s => s.1.length / s.2)).min?

/-- The member-index cache value held by the iterator after `k` pulls. -/
def cacheIdx (ms : List (List Nat × Nat)) : Nat → Nat
  | 0 => 0
  | k + 1 => memberIdx ms (k % strideOf ms)

/-- The iterator state reached after `k` pulls from a freshly built
iterator over members `ms` and `n` vertices. -/
def builtIter (ms : List (List Nat × Nat)) (n k : Nat) :
    RuntimeVertexIter :=
  { member_ranges := rangesFrom 0 ms
    member_slices := ms
    stride := strideOf ms
    data_length := strideOf ms * n
    data_index := k
    member_index := cacheIdx ms k }

/-! ## Offset arithmetic -/

theorem sumTake_zero (ms : List (List Nat × Nat)) : sumTake ms 0 = 0 := rfl

theorem sumTake_nil (i : Nat) : sumTake [] i = 0 := by
  simp [sumTake]

theorem sumTake_cons_succ (m : List Nat × Nat) (ms : List (List Nat × Nat))
    (i : Nat) : sumTake (m :: ms) (i + 1) = m.2 + sumTake ms i := by
  simp [sumTake]

theorem strideOf_nil : strideOf [] = 0 := rfl

theorem strideOf_cons (m : List Nat × Nat) (ms : List (List Nat × Nat)) :
    strideOf (m :: ms) = m.2 + strideOf ms := by
  simp [strideOf]

theorem sumTake_le_stride (ms : List (List Nat × Nat)) (i : Nat) :
    sumTake ms i ≤ strideOf ms := by
  have h : sumTake ms i + ((ms.drop i).map (·.2)).sum = strideOf ms := by
    rw [sumTake, strideOf, ← List.sum_append, ← List.map_append,
      List.take_append_drop]
  omega

theorem sumTake_mono (ms : List (List Nat × Nat)) {i j : Nat} (h : i ≤ j) :
    sumTake ms i ≤ sumTake ms j := by
  induction ms generalizing i j with
  | nil => simp [sumTake_nil]
  | cons m ms ih =>
    cases i with
    | zero => simp [sumTake_zero]
    | succ i =>
      cases j with
      | zero => omega
      | succ j =>
        rw [sumTake_cons_succ, sumTake_cons_succ]
        exact Nat.add_le_add_left (ih (Nat.succ_le_succ_iff.mp h)) _

theorem sumTake_length (ms : List (List Nat × Nat)) :
    sumTake ms ms.length = strideOf ms := by
  simp [sumTake, strideOf]

theorem sumTake_succ_getD (ms : List (List Nat × Nat)) {i : Nat}
    (h : i < ms.length) :
    sumTake ms (i + 1) = sumTake ms i + (ms.getD i ([], 0)).2 := by
  induction ms generalizing i with
  | nil => simp at h
  | cons m ms ih =>
    cases i with
    | zero => simp [sumTake_cons_succ, sumTake_zero]
    | succ i =>
      rw [sumTake_cons_succ, sumTake_cons_succ, List.getD_cons_succ,
        ih (by simpa using h)]
      omega

theorem getD_mem_of_lt (ms : List (List Nat × Nat)) {i : Nat}
    (h : i < ms.length) : ms.getD i ([], 0) ∈ ms := by
  rw [List.getD_eq_getElem _ _ h]
  exact List.getElem_mem h

theorem sumTake_lt_stride (ms : List (List Nat × Nat))
    (hpos : ∀ m ∈ ms, 0 < m.2) {i : Nat} (h : i < ms.length) :
    sumTake ms i < strideOf ms := by
  have h1 := sumTake_succ_getD ms h
  have h2 := hpos _ (getD_mem_of_lt ms h)
  have h3 := sumTake_le_stride ms (i + 1)
  omega

theorem sumTake_pos (ms : List (List Nat × Nat))
    (hpos : ∀ m ∈ ms, 0 < m.2) (hne : ms ≠ []) {i : Nat} (hi : 0 < i) :
    0 < sumTake ms i := by
  cases ms with
  | nil => exact absurd rfl hne
  | cons m ms =>
    cases i with
    | zero => omega
    | succ i =>
      rw [sumTake_cons_succ]
      have := hpos m (by simp)
      omega

/-! ## Member ranges -/

theorem rangesFrom_length (base : Nat) (ms : List (List Nat × Nat)) :
    (rangesFrom base ms).length = ms.length := by
  induction ms generalizing base with
  | nil => rfl
  | cons m ms ih => simp [rangesFrom, ih]

theorem rangesFrom_getD (ms : List (List Nat × Nat)) {i : Nat}
    (h : i < ms.length) (base : Nat) :
    (rangesFrom base ms).getD i (0, 0) =
      (base + sumTake ms i, base + sumTake ms (i + 1)) := by
  induction ms generalizing base i with
  | nil => simp at h
  | cons m ms ih =>
    cases i with
    | zero =>
      simp [rangesFrom, sumTake_zero, sumTake_cons_succ]
    | succ i =>
      rw [rangesFrom, List.getD_cons_succ, ih (by simpa using h),
        sumTake_cons_succ, sumTake_cons_succ]
      simp [Nat.add_assoc]

/-! ## The linear member search -/

theorem memberIdx_lt (ms : List (List Nat × Nat)) (off : Nat)
    (hoff : off < strideOf ms) : memberIdx ms off < ms.length := by
  induction ms generalizing off with
  | nil => simp [strideOf_nil] at hoff
  | cons m ms ih =>
    rw [memberIdx]
    split
    · simp
    · next h =>
      have hlt : off - m.2 < strideOf ms := by
        rw [strideOf_cons] at hoff; omega
      simpa using ih _ hlt

theorem memberIdx_spec (ms : List (List Nat × Nat)) (off : Nat)
    (hoff : off < strideOf ms) :
    sumTake ms (memberIdx ms off) ≤ off ∧
      off < sumTake ms (memberIdx ms off + 1) := by
  induction ms generalizing off with
  | nil => simp [strideOf_nil] at hoff
  | cons m ms ih =>
    rw [memberIdx]
    split
    · next h =>
      rw [sumTake_zero, sumTake_cons_succ, sumTake_zero]
      omega
    · next h =>
      have hlt : off - m.2 < strideOf ms := by
        rw [strideOf_cons] at hoff; omega
      have := ih _ hlt
      rw [sumTake_cons_succ, sumTake_cons_succ]
      omega

theorem memberIdx_eq_of (ms : List (List Nat × Nat)) {i off : Nat}
    (h1 : i < ms.length) (h2 : sumTake ms i ≤ off)
    (h3 : off < sumTake ms (i + 1)) : memberIdx ms off = i := by
  have hoff : off < strideOf ms :=
    Nat.lt_of_lt_of_le h3 (sumTake_le_stride ms (i + 1))
  have hspec := memberIdx_spec ms off hoff
  rcases Nat.lt_trichotomy (memberIdx ms off) i with hc | hc | hc
  · have h4 : sumTake ms (memberIdx ms off + 1) ≤ sumTake ms i :=
      sumTake_mono ms hc
    omega
  · exact hc
  · have h4 : sumTake ms (i + 1) ≤ sumTake ms (memberIdx ms off) :=
      sumTake_mono ms hc
    omega

theorem byteAt_eq_getD (ms : List (List Nat × Nat)) (v off : Nat)
    (hoff : off < strideOf ms) :
    byteAt ms v off =
      (ms.getD (memberIdx ms off) ([], 0)).1.getD
        (v * (ms.getD (memberIdx ms off) ([], 0)).2 +
          (off - sumTake ms (memberIdx ms off))) 0 := by
  induction ms generalizing off with
  | nil => simp [strideOf_nil] at hoff
  | cons m ms ih =>
    rw [byteAt, memberIdx]
    split
    · next h => simp [sumTake_zero]
    · next h =>
      have hlt : off - m.2 < strideOf ms := by
        rw [strideOf_cons] at hoff; omega
      rw [ih _ hlt, List.getD_cons_succ, sumTake_cons_succ]
      congr 2
      omega

/-! ## The cached member resolution -/

theorem cacheSelect_init (ms : List (List Nat × Nat))
    (hpos : ∀ m ∈ ms, 0 < m.2) (hne : ms ≠ []) :
    cacheSelect (rangesFrom 0 ms) 0 0 = memberIdx ms 0 := by
  cases ms with
  | nil => exact absurd rfl hne
  | cons m ms =>
    have hm := hpos m (by simp)
    rw [memberIdx, if_pos hm]
    rw [cacheSelect, rangesFrom]
    simp only [List.getD_cons_zero]
    rw [if_neg (by omega)]

theorem cacheSelect_step (ms : List (List Nat × Nat))
    (hpos : ∀ m ∈ ms, 0 < m.2) {off : Nat} (hoff : off < strideOf ms) :
    cacheSelect (rangesFrom 0 ms) (memberIdx ms off)
        ((off + 1) % strideOf ms) =
      memberIdx ms ((off + 1) % strideOf ms) := by
  have hilt : memberIdx ms off < ms.length := memberIdx_lt ms off hoff
  have hspec := memberIdx_spec ms off hoff
  have hrg := rangesFrom_getD ms hilt 0
  have hne : ms ≠ [] := by
    intro h; rw [h] at hilt; simp at hilt
  rw [cacheSelect, rangesFrom_length, hrg]
  simp only [Nat.zero_add]
  by_cases hlast : off + 1 < strideOf ms
  · rw [Nat.mod_eq_of_lt hlast]
    by_cases hin : off + 1 < sumTake ms (memberIdx ms off + 1)
    · rw [if_neg (by omega)]
      exact (memberIdx_eq_of ms hilt (by omega) hin).symm
    · rw [if_pos (by omega)]
      have hne2 : memberIdx ms off + 1 ≠ ms.length := by
        intro hcontra
        have h5 := sumTake_length ms
        rw [← hcontra] at h5
        omega
      rw [if_neg hne2]
      have hi1 : memberIdx ms off + 1 < ms.length := by omega
      have hpos1 : 0 < (ms.getD (memberIdx ms off + 1) ([], 0)).2 :=
        hpos _ (getD_mem_of_lt ms hi1)
      have hs := sumTake_succ_getD ms hi1
      exact (memberIdx_eq_of ms hi1 (by omega) (by omega)).symm
  · have heq : off + 1 = strideOf ms := by omega
    rw [heq, Nat.mod_self]
    have he : sumTake ms (memberIdx ms off + 1) = strideOf ms := by
      have := sumTake_le_stride ms (memberIdx ms off + 1); omega
    have hm0 : memberIdx ms 0 = 0 := by
      cases ms with
      | nil => exact absurd rfl hne
      | cons m ms' => rw [memberIdx, if_pos (hpos m (by simp))]
    have hi1len : memberIdx ms off + 1 = ms.length := by
      by_contra hcon
      have hi1 : memberIdx ms off + 1 < ms.length := by omega
      have := sumTake_lt_stride ms hpos hi1
      omega
    by_cases hz : 0 < sumTake ms (memberIdx ms off)
    · rw [if_pos (Or.inr hz), if_pos hi1len, hm0]
    · rw [if_neg (by omega), hm0]
      by_contra hcon
      have : 0 < memberIdx ms off := by omega
      have := sumTake_pos ms hpos hne this
      omega

/-! ## The iterator's step behaviour on reachable states -/

theorem strideOf_pos (ms : List (List Nat × Nat))
    (hpos : ∀ m ∈ ms, 0 < m.2) (hne : ms ≠ []) : 0 < strideOf ms := by
  cases ms with
  | nil => exact absurd rfl hne
  | cons m ms' =>
    have := hpos m (by simp)
    rw [strideOf_cons]
    omega

theorem cacheIdx_resolves (ms : List (List Nat × Nat)) (k : Nat)
    (hpos : ∀ m ∈ ms, 0 < m.2) (hne : ms ≠ []) :
    cacheSelect (rangesFrom 0 ms) (cacheIdx ms k) (k % strideOf ms) =
      memberIdx ms (k % strideOf ms) := by
  have hstr : 0 < strideOf ms := strideOf_pos ms hpos hne
  cases k with
  | zero =>
    rw [cacheIdx, Nat.zero_mod]
    exact cacheSelect_init ms hpos hne
  | succ j =>
    rw [cacheIdx]
    have hjoff : j % strideOf ms < strideOf ms := Nat.mod_lt _ hstr
    have hmod : (j % strideOf ms + 1) % strideOf ms =
        (j + 1) % strideOf ms := Nat.mod_add_mod j (strideOf ms) 1
    rw [← hmod]
    exact cacheSelect_step ms hpos hjoff

theorem next_builtIter (ms : List (List Nat × Nat)) (n : Nat)
    (hpos : ∀ m ∈ ms, 0 < m.2) (hne : ms ≠ []) {k : Nat}
    (hk : k < strideOf ms * n) :
    (builtIter ms n k).next =
      some (byteAt ms (k / strideOf ms) (k % strideOf ms),
        builtIter ms n (k + 1)) := by
  have hstr : 0 < strideOf ms := strideOf_pos ms hpos hne
  have hoff : k % strideOf ms < strideOf ms := Nat.mod_lt _ hstr
  have hsel := cacheIdx_resolves ms k hpos hne
  have hilt : memberIdx ms (k % strideOf ms) < ms.length :=
    memberIdx_lt ms _ hoff
  have hspec := memberIdx_spec ms _ hoff
  have hrg := rangesFrom_getD ms hilt 0
  have hsz := sumTake_succ_getD ms hilt
  rw [RuntimeVertexIter.next]
  simp only [builtIter]
  rw [if_neg (by omega)]
  simp only [hsel, hrg, Nat.zero_add]
  rw [byteAt_eq_getD ms _ _ hoff]
  have harith :
      k / strideOf ms *
          (sumTake ms (memberIdx ms (k % strideOf ms) + 1) -
            sumTake ms (memberIdx ms (k % strideOf ms))) +
          (k % strideOf ms - sumTake ms (memberIdx ms (k % strideOf ms))) =
        k / strideOf ms * (ms.getD (memberIdx ms (k % strideOf ms)) ([], 0)).2 +
          (k % strideOf ms - sumTake ms (memberIdx ms (k % strideOf ms))) := by
    congr 2
    omega
  rw [harith]
  have hstate : cacheIdx ms (k + 1) = memberIdx ms (k % strideOf ms) := rfl
  rw [← hstate]

theorem next_builtIter_end (ms : List (List Nat × Nat)) (n : Nat) :
    (builtIter ms n (strideOf ms * n)).next = none := by
  rw [RuntimeVertexIter.next]
  simp [builtIter]

/-! ## Draining the iterator -/

theorem run_of_next_none (it : RuntimeVertexIter) (h : it.next = none)
    (fuel : Nat) : it.run fuel = ([], it) := by
  cases fuel with
  | zero => rfl
  | succ f => simp [RuntimeVertexIter.run, h]

theorem run_builtIter (ms : List (List Nat × Nat)) (n : Nat)
    (hpos : ∀ m ∈ ms, 0 < m.2) (hne : ms ≠ []) :
    ∀ (j k : Nat), k + j ≤ strideOf ms * n →
    (builtIter ms n k).run j =
      ((List.range' k j).map
        (fun p => byteAt ms (p / strideOf ms) (p % strideOf ms)),
       builtIter ms n (k + j)) := by
  intro j
  induction j with
  | zero =>
    intro k h
    simp [RuntimeVertexIter.run]
  | succ j ih =>
    intro k h
    rw [RuntimeVertexIter.run,
      next_builtIter ms n hpos hne (k := k) (by omega)]
    simp only []
    rw [ih (k + 1) (by omega), List.range'_succ, List.map_cons]
    have hk1 : k + 1 + j = k + (j + 1) := by omega
    rw [hk1]

theorem run_add (it : RuntimeVertexIter) (a b : Nat) :
    it.run (a + b) =
      ((it.run a).1 ++ ((it.run a).2.run b).1, ((it.run a).2.run b).2) := by
  induction a generalizing it with
  | zero => simp [RuntimeVertexIter.run]
  | succ a ih =>
    have hab : a + 1 + b = (a + b) + 1 := by omega
    rw [hab]
    cases h : it.next with
    | none =>
      rw [run_of_next_none it h, run_of_next_none it h,
        run_of_next_none it h]
      simp
    | some p =>
      rw [RuntimeVertexIter.run, RuntimeVertexIter.run]
      simp only [h, ih p.2]
      simp

/-! ## The interleaved stream as a list identity -/

theorem map_getD_range (l : List Nat) (i len : Nat)
    (h : i + len ≤ l.length) :
    (List.range len).map (fun o => l.getD (i + o) 0) =
      (l.drop i).take len := by
  apply List.ext_getElem
  · simp only [List.length_map, List.length_range, List.length_take,
      List.length_drop]
    omega
  · intro j h1 h2
    simp only [List.getElem_map, List.getElem_range]
    rw [List.getElem_take, List.getElem_drop]
    have hj : j < len := by simpa using h1
    exact List.getD_eq_getElem l 0 (by omega)

theorem record_eq (ms : List (List Nat × Nat)) (v : Nat)
    (hlen : ∀ m ∈ ms, (v + 1) * m.2 ≤ m.1.length) :
    (List.range (strideOf ms)).map (fun o => byteAt ms v o) =
      ms.flatMap (fun m => (m.1.drop (v * m.2)).take m.2) := by
  induction ms with
  | nil => simp [strideOf_nil]
  | cons m ms ih =>
    rw [strideOf_cons, List.range_add, List.map_append, List.flatMap_cons]
    congr 1
    · rw [← map_getD_range m.1 (v * m.2) m.2
        (by
          have h1 := hlen m (by simp)
          have h2 : (v + 1) * m.2 = v * m.2 + m.2 := by ring
          omega)]
      apply List.map_congr_left
      intro o ho
      have hom : o < m.2 := List.mem_range.mp ho
      rw [byteAt, if_pos hom]
    · rw [List.map_map, ← ih (fun x hx => hlen x (by simp [hx]))]
      apply List.map_congr_left
      intro o ho
      simp only [Function.comp_apply]
      rw [byteAt, if_neg (by omega)]
      congr 1
      omega

theorem interleave_succ (ms : List (List Nat × Nat)) (n : Nat) :
    interleave ms (n + 1) =
      interleave ms n ++
        ms.flatMap (fun m => (m.1.drop (n * m.2)).take m.2) := by
  rw [interleave, interleave, List.range_succ, List.flatMap_append]
  simp

theorem stream_eq_interleave (ms : List (List Nat × Nat))
    (hpos : ∀ m ∈ ms, 0 < m.2) (hne : ms ≠ []) (n : Nat)
    (hcnt : ∀ m ∈ ms, n * m.2 ≤ m.1.length) :
    (List.range' 0 (strideOf ms * n)).map
        (fun p => byteAt ms (p / strideOf ms) (p % strideOf ms)) =
      interleave ms n := by
  induction n with
  | zero => simp [interleave]
  | succ n ih =>
    have hstr : 0 < strideOf ms := strideOf_pos ms hpos hne
    have hstep : strideOf ms * (n + 1) = strideOf ms * n + strideOf ms := by
      ring
    have hsplit : List.range' 0 (strideOf ms * n + strideOf ms) =
        List.range' 0 (strideOf ms * n) ++
          List.range' (strideOf ms * n) (strideOf ms) := by
      have h0 := List.range'_append 0 (strideOf ms * n) (strideOf ms) 1
      simp only [Nat.one_mul, Nat.zero_add] at h0
      rw [Nat.add_comm (strideOf ms * n) (strideOf ms)]
      exact h0.symm
    rw [hstep, hsplit, List.map_append]
    have hcnt' : ∀ m ∈ ms, n * m.2 ≤ m.1.length := by
      intro m hm
      have h1 := hcnt m hm
      have h2 : n * m.2 ≤ (n + 1) * m.2 :=
        Nat.mul_le_mul_right _ (by omega)
      omega
    rw [ih hcnt']
    have hrec : (List.range' (strideOf ms * n) (strideOf ms)).map
        (fun p => byteAt ms (p / strideOf ms) (p % strideOf ms)) =
        ms.flatMap (fun m => (m.1.drop (n * m.2)).take m.2) := by
      rw [List.range'_eq_map_range, List.map_map,
        ← record_eq ms n (fun m hm => hcnt m hm)]
      apply List.map_congr_left
      intro o ho
      have hom : o < strideOf ms := List.mem_range.mp ho
      simp only [Function.comp_apply]
      have hd : (strideOf ms * n + o) / strideOf ms = n := by
        rw [Nat.mul_add_div hstr, Nat.div_eq_of_lt hom]
        omega
      have hm : (strideOf ms * n + o) % strideOf ms = o := by
        rw [Nat.mul_add_mod, Nat.mod_eq_of_lt hom]
      rw [hd, hm]
    rw [hrec, interleave_succ]

/-! ## Builder structure -/

theorem totalSize_nil : totalSize [] = 0 := rfl

theorem totalSize_cons (r : Reg) (rs : List Reg) :
    totalSize (r :: rs) = r.fieldSize + totalSize rs := by
  simp [totalSize]

theorem slicesOf_cons (r : Reg) (rs : List Reg) :
    slicesOf (r :: rs) = (r.data, r.fieldSize) :: slicesOf rs := rfl

theorem strideOf_slicesOf (regs : List Reg) :
    strideOf (slicesOf regs) = totalSize regs := by
  simp [strideOf, slicesOf, totalSize, List.map_map, Function.comp_def]

theorem add_eq_of_ok (b : RuntimeVertexBuilder) (r : Reg)
    (hok : r.okb = true) :
    b.add r.attr r.data r.fieldSize = some
      { members := b.members ++
          [(r.attr.name,
            { offset := b.offset, format := r.attr.format,
              num_elements :=
                r.fieldSize / (r.attr.format.blockSize.getD 0) })],
        slices := b.slices ++ [(r.data, r.fieldSize)],
        offset := b.offset + r.fieldSize } := by
  rw [Reg.okb] at hok
  match h : r.attr.format.blockSize with
  | none => rw [h] at hok; simp at hok
  | some s =>
    rw [h] at hok
    simp only [Bool.and_eq_true, decide_eq_true_eq] at hok
    simp only [RuntimeVertexBuilder.add, h, Option.getD_some]
    rw [if_neg (by omega), if_pos hok.2]

theorem addAll_eq (regs : List Reg) :
    ∀ b : RuntimeVertexBuilder, (∀ r ∈ regs, r.okb = true) →
    addAll b regs = some
      { members := b.members ++ membersFrom b.offset regs,
        slices := b.slices ++ slicesOf regs,
        offset := b.offset + totalSize regs } := by
  induction regs with
  | nil =>
    intro b h
    simp [addAll, membersFrom, slicesOf, totalSize]
  | cons r rs ih =>
    intro b h
    rw [addAll, List.foldlM_cons, add_eq_of_ok b r (h r (by simp))]
    rw [show ∀ x, (some x >>= fun b' => List.foldlM
        (fun b r => RuntimeVertexBuilder.add b r.attr r.data r.fieldSize)
          b' rs) = addAll x rs from fun x => rfl]
    rw [ih _ (fun x hx => h x (by simp [hx]))]
    simp only [RuntimeVertexBuilder.mk.injEq, Option.some.injEq]
    refine ⟨?_, ?_, ?_⟩
    · rw [membersFrom, List.append_assoc]
      rfl
    · rw [slicesOf_cons, List.append_assoc]
      rfl
    · rw [totalSize_cons]
      omega

theorem mapM_counts (ms : List (List Nat × Nat))
    (hpos : ∀ m ∈ ms, 0 < m.2) :
    ms.mapM (fun s => if s.2 = 0 then none else some (s.1.length / s.2)) =
      some (ms.map (fun s => s.1.length / s.2)) := by
  induction ms with
  | nil => rfl
  | cons m ms ih =>
    rw [List.mapM_cons]
    have h := hpos m (by simp)
    rw [if_neg (by omega), ih (fun x hx => hpos x (by simp [hx]))]
    rfl

theorem sum_map_mul (ms : List (List Nat × Nat)) (n : Nat) :
    (ms.map (fun s => s.2 * n)).sum = strideOf ms * n := by
  induction ms with
  | nil => simp [strideOf_nil]
  | cons m ms ih =>
    rw [List.map_cons, List.sum_cons, ih, strideOf_cons]
    ring

theorem membersFrom_offsets (regs : List Reg) :
    ∀ base : Nat,
    ((membersFrom base regs).map (fun m => m.2.offset)).zip
        (((membersFrom base regs).drop 1).map (fun m => m.2.offset) ++
          [base + totalSize regs]) =
      rangesFrom base (slicesOf regs) := by
  induction regs with
  | nil =>
    intro base
    simp [membersFrom, slicesOf, rangesFrom]
  | cons r rs ih =>
    intro base
    cases rs with
    | nil =>
      simp [membersFrom, slicesOf, rangesFrom, totalSize]
    | cons r' rs' =>
      have htail := ih (base + r.fieldSize)
      simp only [membersFrom] at htail ⊢
      simp only [List.map_cons, List.drop_succ_cons, List.drop_zero,
        List.zip_cons_cons, List.cons_append] at htail ⊢
      rw [slicesOf_cons, rangesFrom]
      dsimp only
      rw [totalSize_cons, ← Nat.add_assoc, totalSize_cons r' rs',
        ← Nat.add_assoc]
      rw [totalSize_cons, ← Nat.add_assoc] at htail
      exact congrArg _ htail

theorem slicesOf_pos (regs : List Reg) (hpos : ∀ r ∈ regs, 0 < r.fieldSize) :
    ∀ m ∈ slicesOf regs, 0 < m.2 := by
  intro m hm
  obtain ⟨r, hr, rfl⟩ := List.mem_map.mp hm
  exact hpos r hr

theorem build_builtIter (regs : List Reg) (n : Nat)
    (hpos : ∀ r ∈ regs, 0 < r.fieldSize)
    (hmin : minCount (slicesOf regs) = some n) :
    (RuntimeVertexBuilder.mk (membersFrom 0 regs) (slicesOf regs)
        (totalSize regs)).build =
      some (builtIter (slicesOf regs) n 0,
        { members := collectMembers (membersFrom 0 regs),
          stride := totalSize regs,
          input_rate := VertexInputRate.Vertex }) := by
  rw [RuntimeVertexBuilder.build]
  dsimp only
  rw [mapM_counts _ (slicesOf_pos regs hpos)]
  rw [minCount] at hmin
  simp only [Option.bind_eq_bind, Option.some_bind, hmin]
  rw [sum_map_mul]
  have hranges := membersFrom_offsets regs 0
  simp only [Nat.zero_add] at hranges
  simp only [builtIter]
  rw [← hranges, strideOf_slicesOf]
  rfl

/-! ## The vertex count -/

theorem min?_le_of_mem {l : List Nat} {n : Nat} (h : l.min? = some n) :
    ∀ x ∈ l, n ≤ x :=
  (List.min?_eq_some_iff'.mp h).2

theorem minCount_le (ms : List (List Nat × Nat)) {n : Nat}
    (h : minCount ms = some n) (hpos : ∀ m ∈ ms, 0 < m.2) :
    ∀ m ∈ ms, n * m.2 ≤ m.1.length := by
  intro m hm
  have h1 : n ≤ m.1.length / m.2 :=
    min?_le_of_mem h _ (List.mem_map_of_mem _ hm)
  exact (Nat.le_div_iff_mul_le (hpos m hm)).mp h1

theorem minCount_ne_nil {ms : List (List Nat × Nat)} {n : Nat}
    (h : minCount ms = some n) : ms ≠ [] := by
  intro hcon
  rw [hcon] at h
  simp [minCount] at h

/-! ## Extracting records and member chunks from the stream -/

theorem record_length (ms : List (List Nat × Nat)) (v : Nat)
    (hlen : ∀ m ∈ ms, (v + 1) * m.2 ≤ m.1.length) :
    (ms.flatMap (fun m => (m.1.drop (v * m.2)).take m.2)).length =
      strideOf ms := by
  induction ms with
  | nil => rfl
  | cons m ms ih =>
    rw [List.flatMap_cons, List.length_append, strideOf_cons,
      ih (fun x hx => hlen x (by simp [hx]))]
    have h1 := hlen m (by simp)
    have h2 : (v + 1) * m.2 = v * m.2 + m.2 := by ring
    simp only [List.length_take, List.length_drop]
    omega

theorem flatten_extract (cs : List (List Nat)) :
    ∀ i, i < cs.length →
    ((cs.flatten.drop (((cs.take i).map List.length).sum)).take
        (cs.getD i []).length) = cs.getD i [] := by
  induction cs with
  | nil => intro i h; simp at h
  | cons c cs ih =>
    intro i h
    cases i with
    | zero =>
      simp only [List.take_zero, List.map_nil, List.sum_nil,
        List.drop_zero, List.flatten_cons, List.getD_cons_zero]
      exact List.take_left c cs.flatten
    | succ i =>
      simp only [List.take_succ_cons, List.map_cons, List.sum_cons,
        List.flatten_cons, List.getD_cons_succ]
      rw [List.drop_append]
      exact ih i (by simpa using h)

theorem sum_const_range (v s : Nat) (f : Nat → Nat)
    (hf : ∀ w, w < v → f w = s) : ((List.range v).map f).sum = v * s := by
  induction v with
  | zero => simp
  | succ v ih =>
    rw [List.range_succ, List.map_append, List.sum_append,
      ih (fun w hw => hf w (by omega))]
    simp [hf v (by omega)]
    ring

theorem interleave_record (ms : List (List Nat × Nat)) (n : Nat)
    (hcnt : ∀ m ∈ ms, n * m.2 ≤ m.1.length) {v : Nat} (hv : v < n) :
    ((interleave ms n).drop (v * strideOf ms)).take (strideOf ms) =
      ms.flatMap (fun m => (m.1.drop (v * m.2)).take m.2) := by
  have hlen : ∀ w, w < n → ∀ m ∈ ms, (w + 1) * m.2 ≤ m.1.length := by
    intro w hw m hm
    have h1 := hcnt m hm
    have h2 : (w + 1) * m.2 ≤ n * m.2 := Nat.mul_le_mul_right _ (by omega)
    omega
  have hflat : interleave ms n =
      ((List.range n).map
        (fun w => ms.flatMap (fun m => (m.1.drop (w * m.2)).take m.2))).flatten := by
    rw [interleave, List.flatMap]
  set cs := (List.range n).map
    (fun w => ms.flatMap (fun m => (m.1.drop (w * m.2)).take m.2)) with hcs
  have hv' : v < cs.length := by simp [hcs, hv]
  have hgetD : cs.getD v [] =
      ms.flatMap (fun m => (m.1.drop (v * m.2)).take m.2) := by
    rw [List.getD_eq_getElem _ _ hv']
    simp [hcs]
  have hsum : ((cs.take v).map List.length).sum = v * strideOf ms := by
    have htake : cs.take v = (List.range v).map
        (fun w => ms.flatMap (fun m => (m.1.drop (w * m.2)).take m.2)) := by
      rw [hcs, ← List.map_take, List.take_range, Nat.min_eq_left (by omega)]
    rw [htake, List.map_map]
    exact sum_const_range v (strideOf ms) _
      (fun w hw => record_length ms w (hlen w (by omega)))
  have h := flatten_extract cs v hv'
  rw [hsum, hgetD, record_length ms v (hlen v hv)] at h
  rw [hflat, h]

theorem take_append_len {l1 l2 : List Nat} {k : Nat} (h : l1.length = k) :
    (l1 ++ l2).take k = l1 := by
  subst h
  exact List.take_left _ _

theorem drop_append_len {l1 l2 : List Nat} {k j : Nat}
    (h : l1.length = k) : (l1 ++ l2).drop (k + j) = l2.drop j := by
  subst h
  exact List.drop_append j

theorem record_member_slice (ms : List (List Nat × Nat)) (v : Nat)
    (hlen : ∀ m ∈ ms, (v + 1) * m.2 ≤ m.1.length) :
    ∀ i, i < ms.length →
    (((ms.flatMap (fun m => (m.1.drop (v * m.2)).take m.2)).drop
        (sumTake ms i)).take ((ms.getD i ([], 0)).2)) =
      ((ms.getD i ([], 0)).1.drop (v * (ms.getD i ([], 0)).2)).take
        (ms.getD i ([], 0)).2 := by
  induction ms with
  | nil => intro i h; simp at h
  | cons m ms ih =>
    intro i h
    have hchunk : ((m.1.drop (v * m.2)).take m.2).length = m.2 := by
      have h1 := hlen m (by simp)
      have h2 : (v + 1) * m.2 = v * m.2 + m.2 := by ring
      simp only [List.length_take, List.length_drop]
      omega
    cases i with
    | zero =>
      simp only [List.flatMap_cons, sumTake_zero, List.drop_zero,
        List.getD_cons_zero]
      exact take_append_len hchunk
    | succ i =>
      simp only [List.flatMap_cons, List.getD_cons_succ, sumTake_cons_succ]
      rw [drop_append_len hchunk]
      exact ih (fun x hx => hlen x (by simp [hx])) i (by simpa using h)

theorem mapM_counts_zero (ms : List (List Nat × Nat)) (x : List Nat × Nat)
    (hx : x.2 = 0) :
    (ms ++ [x]).mapM
        (fun s => if s.2 = 0 then none else some (s.1.length / s.2)) =
      none := by
  induction ms with
  | nil =>
    rw [List.nil_append, List.mapM_cons]
    rw [if_pos hx]
    rfl
  | cons m ms ih =>
    rw [List.cons_append, List.mapM_cons, ih]
    cases h : (if m.2 = 0 then none
        else some (m.1.length / m.2) : Option Nat) <;> simp [h]

theorem membersFrom_length (regs : List Reg) :
    ∀ base, (membersFrom base regs).length = regs.length := by
  induction regs with
  | nil => intro base; rfl
  | cons r rs ih =>
    intro base
    simp [membersFrom, ih]

theorem membersFrom_getD_offset (regs : List Reg) :
    ∀ base i, i < regs.length →
    ((membersFrom base regs).getD i
        ("", { offset := 0, format := ⟨none⟩, num_elements := 0 })).2.offset =
      base + sumTake (slicesOf regs) i := by
  induction regs with
  | nil =>
    intro base i h
    simp at h
  | cons r rs ih =>
    intro base i h
    cases i with
    | zero => simp [membersFrom, sumTake_zero]
    | succ i =>
      simp only [membersFrom, List.getD_cons_succ, slicesOf_cons,
        sumTake_cons_succ]
      rw [ih (base + r.fieldSize) i (by simpa using h)]
      omega

theorem sumTake_slicesOf (regs : List Reg) (i : Nat) :
    sumTake (slicesOf regs) i = ((regs.take i).map (·.fieldSize)).sum := by
  rw [sumTake, slicesOf, ← List.map_take, List.map_map]
  rfl

theorem slicesOf_length (regs : List Reg) :
    (slicesOf regs).length = regs.length := by
  simp [slicesOf]

theorem addAll_new (regs : List Reg) (hok : ∀ r ∈ regs, r.okb = true) :
    addAll RuntimeVertexBuilder.new regs = some
      (RuntimeVertexBuilder.mk (membersFrom 0 regs) (slicesOf regs)
        (totalSize regs)) := by
  have h := addAll_eq regs RuntimeVertexBuilder.new hok
  simpa [RuntimeVertexBuilder.new] using h

/-! ## Claims -/

/-- Claim C8: calling `build()` on a builder with no registered
attributes panics (the vertex count is the unwrapped minimum over an
empty collection, modelled here as `none`) rather than returning an
empty sequence and an empty layout descriptor. -/
theorem claim_C8 : RuntimeVertexBuilder.new.build = none := by
  rw [RuntimeVertexBuilder.build]
  rfl

/-- Claim C5: `add` aborts construction (modelled as `none`) exactly
when the element byte size is not an integer multiple of the format's
byte size, given the format has a defined (necessarily nonzero) block
size; otherwise it appends a member with
`num_elements = field_size / format_size` at the current running offset
and advances the offset by `field_size`. -/
theorem claim_C5 (b : RuntimeVertexBuilder) (attrib : VertexAttribute)
    (data : List Nat) (field_size s : Nat)
    (hbs : attrib.format.blockSize = some s) (hs : 0 < s) :
    (b.add attrib data field_size = none ↔ ¬ field_size % s = 0) ∧
    (field_size % s = 0 →
      b.add attrib data field_size = some
        { members := b.members ++
            [(attrib.name,
              { offset := b.offset, format := attrib.format,
                num_elements := field_size / s })],
          slices := b.slices ++ [(data, field_size)],
          offset := b.offset + field_size }) := by
  simp only [RuntimeVertexBuilder.add, hbs]
  rw [if_neg (by omega)]
  refine ⟨⟨?_, ?_⟩, ?_⟩
  · intro h hcon
    rw [if_pos hcon] at h
    simp at h
  · intro h
    rw [if_neg h]
  · intro h
    rw [if_pos h]

/-- Witness for C5 at a concrete input: a 4-byte element with a 2-byte
format divides evenly, so `add` succeeds with `num_elements = 2`. -/
theorem claim_C5_witness :
    (VertexAttribute.mk "a" ⟨some 2⟩).format.blockSize = some 2 ∧ 0 < 2 ∧
    ((RuntimeVertexBuilder.new.add ⟨"a", ⟨some 2⟩⟩ [1, 2, 3, 4] 4 = none ↔
        ¬ (4 : Nat) % 2 = 0) ∧
      ((4 : Nat) % 2 = 0 →
        RuntimeVertexBuilder.new.add ⟨"a", ⟨some 2⟩⟩ [1, 2, 3, 4] 4 = some
          { members := RuntimeVertexBuilder.new.members ++
              [("a", { offset := RuntimeVertexBuilder.new.offset,
                       format := ⟨some 2⟩, num_elements := 4 / 2 })],
            slices := RuntimeVertexBuilder.new.slices ++ [([1, 2, 3, 4], 4)],
            offset := RuntimeVertexBuilder.new.offset + 4 })) :=
  ⟨rfl, by decide,
    claim_C5 RuntimeVertexBuilder.new ⟨"a", ⟨some 2⟩⟩ [1, 2, 3, 4] 4 2
      rfl (by decide)⟩

/-- Claim C10: adding an attribute whose element type has byte size
zero passes the divisibility assertion (zero is a multiple of any
nonzero format size, giving `num_elements = 0`), and the subsequent
`build()` panics with a division by zero computing that member's vertex
count (the panic is modelled as `none`). -/
theorem claim_C10 (b : RuntimeVertexBuilder) (attrib : VertexAttribute)
    (data : List Nat) (s : Nat) (hbs : attrib.format.blockSize = some s)
    (hs : 0 < s) :
    ∃ b', b.add attrib data 0 = some b' ∧
      b'.members = b.members ++
        [(attrib.name,
          { offset := b.offset, format := attrib.format,
            num_elements := 0 })] ∧
      b'.build = none := by
  have hadd : b.add attrib data 0 = some
      { members := b.members ++
          [(attrib.name,
            { offset := b.offset, format := attrib.format,
              num_elements := 0 })],
        slices := b.slices ++ [(data, 0)],
        offset := b.offset + 0 } := by
    simp only [RuntimeVertexBuilder.add, hbs]
    rw [if_neg (by omega), if_pos (by simp)]
    simp [Nat.zero_div]
  refine ⟨_, hadd, rfl, ?_⟩
  rw [RuntimeVertexBuilder.build]
  rw [mapM_counts_zero b.slices (data, 0) rfl]
  rfl

/-- Witness for C10 at a concrete input: a zero-sized element over a
1-byte format is accepted by `add` and makes `build` fail. -/
theorem claim_C10_witness :
    (VertexAttribute.mk "z" ⟨some 1⟩).format.blockSize = some 1 ∧ 0 < 1 ∧
    (∃ b', RuntimeVertexBuilder.new.add ⟨"z", ⟨some 1⟩⟩ [] 0 = some b' ∧
      b'.members = RuntimeVertexBuilder.new.members ++
        [("z", { offset := RuntimeVertexBuilder.new.offset,
                 format := ⟨some 1⟩, num_elements := 0 })] ∧
      b'.build = none) :=
  ⟨rfl, by decide,
    claim_C10 RuntimeVertexBuilder.new ⟨"z", ⟨some 1⟩⟩ [] 1 rfl (by decide)⟩

/-- Claim C3: for every accepted sequence of registrations, the
finalized stride equals the sum of the registered attributes' element
byte sizes, each member's offset equals the sum of the element byte
sizes of the members registered before it, and the member byte ranges
`[offset_i, offset_{i+1})` (the last ending at the stride) are
contiguous, pairwise non-overlapping, and cover `[0, stride)`
exactly. -/
theorem claim_C3 (regs : List Reg) (hok : ∀ r ∈ regs, r.okb = true)
    (hpos : ∀ r ∈ regs, 0 < r.fieldSize) (n : Nat)
    (hmin : minCount (slicesOf regs) = some n) :
    ∃ b it info,
      addAll RuntimeVertexBuilder.new regs = some b ∧
      b.build = some (it, info) ∧
      info.stride = (regs.map (·.fieldSize)).sum ∧
      b.offset = (regs.map (·.fieldSize)).sum ∧
      b.members.length = regs.length ∧
      (∀ i, i < regs.length →
        (b.members.getD i
            ("", { offset := 0, format := ⟨none⟩,
                   num_elements := 0 })).2.offset =
          ((regs.take i).map (·.fieldSize)).sum) ∧
      it.member_ranges.length = regs.length ∧
      (∀ i, i < regs.length →
        it.member_ranges.getD i (0, 0) =
          (((regs.take i).map (·.fieldSize)).sum,
           ((regs.take (i + 1)).map (·.fieldSize)).sum)) ∧
      (∀ i, i + 1 < regs.length →
        (it.member_ranges.getD i (0, 0)).2 =
          (it.member_ranges.getD (i + 1) (0, 0)).1) ∧
      (regs ≠ [] →
        (it.member_ranges.getD 0 (0, 0)).1 = 0 ∧
        (it.member_ranges.getD (regs.length - 1) (0, 0)).2 = info.stride) ∧
      (∀ off, off < info.stride →
        ∃! i, i < it.member_ranges.length ∧
          (it.member_ranges.getD i (0, 0)).1 ≤ off ∧
          off < (it.member_ranges.getD i (0, 0)).2) := by
  refine ⟨_, _, _, addAll_new regs hok, build_builtIter regs n hpos hmin,
    rfl, rfl, ?_, ?_, ?_, ?_, ?_, ?_, ?_⟩
  · exact membersFrom_length regs 0
  · intro i hi
    rw [membersFrom_getD_offset regs 0 i hi, sumTake_slicesOf]
    omega
  · simp only [builtIter]
    rw [rangesFrom_length, slicesOf_length]
  · intro i hi
    have hi' : i < (slicesOf regs).length := by
      rw [slicesOf_length]; exact hi
    simp only [builtIter]
    rw [rangesFrom_getD _ hi', sumTake_slicesOf, sumTake_slicesOf]
    simp
  · intro i hi
    have hi1 : i < (slicesOf regs).length := by
      rw [slicesOf_length]; omega
    have hi2 : i + 1 < (slicesOf regs).length := by
      rw [slicesOf_length]; omega
    simp only [builtIter]
    rw [rangesFrom_getD _ hi1, rangesFrom_getD _ hi2]
  · intro hne
    have hlen : 0 < regs.length := List.length_pos.mpr hne
    have h0 : 0 < (slicesOf regs).length := by
      rw [slicesOf_length]; omega
    have hlast : regs.length - 1 < (slicesOf regs).length := by
      rw [slicesOf_length]; omega
    simp only [builtIter]
    rw [rangesFrom_getD _ h0, rangesFrom_getD _ hlast]
    constructor
    · simp [sumTake_zero]
    · have hthis : regs.length - 1 + 1 = (slicesOf regs).length := by
        rw [slicesOf_length]; omega
      dsimp only
      rw [hthis, sumTake_length, strideOf_slicesOf]
      omega
  · intro off hoff
    have hoff' : off < strideOf (slicesOf regs) := by
      rw [strideOf_slicesOf]; exact hoff
    have hidx := memberIdx_lt (slicesOf regs) off hoff'
    have hspec := memberIdx_spec (slicesOf regs) off hoff'
    refine ⟨memberIdx (slicesOf regs) off, ⟨?_, ?_, ?_⟩, ?_⟩
    · simp only [builtIter]
      rw [rangesFrom_length]
      exact hidx
    · simp only [builtIter]
      rw [rangesFrom_getD _ hidx]
      omega
    · simp only [builtIter]
      rw [rangesFrom_getD _ hidx]
      omega
    · intro j hj
      simp only [builtIter] at hj
      rw [rangesFrom_length] at hj
      obtain ⟨hjl, hj1, hj2⟩ := hj
      rw [rangesFrom_getD _ hjl] at hj1 hj2
      exact (memberIdx_eq_of (slicesOf regs) hjl (by omega) (by omega)).symm

/-- Witness for C3: two members of sizes 2 and 1 over two vertices. -/
theorem claim_C3_witness :
    (∀ r ∈ [Reg.mk ⟨"a", ⟨some 1⟩⟩ [0, 1, 2, 3] 2,
            Reg.mk ⟨"b", ⟨some 1⟩⟩ [7, 8] 1], r.okb = true) ∧
    (∀ r ∈ [Reg.mk ⟨"a", ⟨some 1⟩⟩ [0, 1, 2, 3] 2,
            Reg.mk ⟨"b", ⟨some 1⟩⟩ [7, 8] 1], 0 < r.fieldSize) ∧
    minCount (slicesOf [Reg.mk ⟨"a", ⟨some 1⟩⟩ [0, 1, 2, 3] 2,
            Reg.mk ⟨"b", ⟨some 1⟩⟩ [7, 8] 1]) = some 2 ∧
    (∃ b it info,
      addAll RuntimeVertexBuilder.new
        [Reg.mk ⟨"a", ⟨some 1⟩⟩ [0, 1, 2, 3] 2,
         Reg.mk ⟨"b", ⟨some 1⟩⟩ [7, 8] 1] = some b ∧
      b.build = some (it, info) ∧
      info.stride = ([Reg.mk ⟨"a", ⟨some 1⟩⟩ [0, 1, 2, 3] 2,
         Reg.mk ⟨"b", ⟨some 1⟩⟩ [7, 8] 1].map (·.fieldSize)).sum ∧
      b.offset = ([Reg.mk ⟨"a", ⟨some 1⟩⟩ [0, 1, 2, 3] 2,
         Reg.mk ⟨"b", ⟨some 1⟩⟩ [7, 8] 1].map (·.fieldSize)).sum ∧
      b.members.length = [Reg.mk ⟨"a", ⟨some 1⟩⟩ [0, 1, 2, 3] 2,
         Reg.mk ⟨"b", ⟨some 1⟩⟩ [7, 8] 1].length ∧
      (∀ i, i < [Reg.mk ⟨"a", ⟨some 1⟩⟩ [0, 1, 2, 3] 2,
         Reg.mk ⟨"b", ⟨some 1⟩⟩ [7, 8] 1].length →
        (b.members.getD i
            ("", { offset := 0, format := ⟨none⟩,
                   num_elements := 0 })).2.offset =
          (([Reg.mk ⟨"a", ⟨some 1⟩⟩ [0, 1, 2, 3] 2,
             Reg.mk ⟨"b", ⟨some 1⟩⟩ [7, 8] 1].take i).map
            (·.fieldSize)).sum) ∧
      it.member_ranges.length = [Reg.mk ⟨"a", ⟨some 1⟩⟩ [0, 1, 2, 3] 2,
         Reg.mk ⟨"b", ⟨some 1⟩⟩ [7, 8] 1].length ∧
      (∀ i, i < [Reg.mk ⟨"a", ⟨some 1⟩⟩ [0, 1, 2, 3] 2,
         Reg.mk ⟨"b", ⟨some 1⟩⟩ [7, 8] 1].length →
        it.member_ranges.getD i (0, 0) =
          ((([Reg.mk ⟨"a", ⟨some 1⟩⟩ [0, 1, 2, 3] 2,
              Reg.mk ⟨"b", ⟨some 1⟩⟩ [7, 8] 1].take i).map
            (·.fieldSize)).sum,
           (([Reg.mk ⟨"a", ⟨some 1⟩⟩ [0, 1, 2, 3] 2,
              Reg.mk ⟨"b", ⟨some 1⟩⟩ [7, 8] 1].take (i + 1)).map
            (·.fieldSize)).sum)) ∧
      (∀ i, i + 1 < [Reg.mk ⟨"a", ⟨some 1⟩⟩ [0, 1, 2, 3] 2,
         Reg.mk ⟨"b", ⟨some 1⟩⟩ [7, 8] 1].length →
        (it.member_ranges.getD i (0, 0)).2 =
          (it.member_ranges.getD (i + 1) (0, 0)).1) ∧
      ([Reg.mk ⟨"a", ⟨some 1⟩⟩ [0, 1, 2, 3] 2,
        Reg.mk ⟨"b", ⟨some 1⟩⟩ [7, 8] 1] ≠ ([] : List Reg) →
        (it.member_ranges.getD 0 (0, 0)).1 = 0 ∧
        (it.member_ranges.getD ([Reg.mk ⟨"a", ⟨some 1⟩⟩ [0, 1, 2, 3] 2,
          Reg.mk ⟨"b", ⟨some 1⟩⟩ [7, 8] 1].length - 1) (0, 0)).2 =
          info.stride) ∧
      (∀ off, off < info.stride →
        ∃! i, i < it.member_ranges.length ∧
          (it.member_ranges.getD i (0, 0)).1 ≤ off ∧
          off < (it.member_ranges.getD i (0, 0)).2)) :=
  ⟨by decide, by decide, by decide,
    claim_C3 _ (by decide) (by decide) 2 (by decide)⟩

/-- Claim C1: for every accepted registration sequence and every vertex
index `v` below the vertex count, the byte stream the iterator emits is
the interleaving of the sources (vertex-major, members in registration
order, each contributing its source bytes
`[v * field_size, (v+1) * field_size)`), so vertex `v`'s record is the
concatenation of the members' bytes for vertex `v`, and slicing each
record at `[offset, offset + field_size)` per member reproduces every
source array byte-for-byte over the emitted vertices. -/
theorem claim_C1 (regs : List Reg) (hok : ∀ r ∈ regs, r.okb = true)
    (hpos : ∀ r ∈ regs, 0 < r.fieldSize) (hne : regs ≠ []) (n : Nat)
    (hmin : minCount (slicesOf regs) = some n) :
    ∃ b it info,
      addAll RuntimeVertexBuilder.new regs = some b ∧
      b.build = some (it, info) ∧
      (it.run it.data_length).1 = interleave (slicesOf regs) n ∧
      (∀ v, v < n →
        (((it.run it.data_length).1.drop (v * info.stride)).take
            info.stride =
          (slicesOf regs).flatMap
            (fun m => (m.1.drop (v * m.2)).take m.2)) ∧
        (∀ i, i < regs.length →
          (((((it.run it.data_length).1.drop (v * info.stride)).take
                info.stride).drop
              ((b.members.getD i
                ("", { offset := 0, format := ⟨none⟩,
                       num_elements := 0 })).2.offset)).take
              ((slicesOf regs).getD i ([], 0)).2) =
            (((slicesOf regs).getD i ([], 0)).1.drop
                (v * ((slicesOf regs).getD i ([], 0)).2)).take
              ((slicesOf regs).getD i ([], 0)).2)) := by
  have hne' : slicesOf regs ≠ [] := by
    simpa [slicesOf] using hne
  have hpos' := slicesOf_pos regs hpos
  have hcnt := minCount_le (slicesOf regs) hmin hpos'
  refine ⟨_, _, _, addAll_new regs hok, build_builtIter regs n hpos hmin,
    ?_, ?_⟩
  · have hrun := run_builtIter (slicesOf regs) n hpos' hne'
      (strideOf (slicesOf regs) * n) 0 (by omega)
    have hstream : ((builtIter (slicesOf regs) n 0).run
        (strideOf (slicesOf regs) * n)).1 = interleave (slicesOf regs) n := by
      rw [hrun]
      exact stream_eq_interleave (slicesOf regs) hpos' hne' n hcnt
    exact hstream
  · intro v hv
    have hrun := run_builtIter (slicesOf regs) n hpos' hne'
      (strideOf (slicesOf regs) * n) 0 (by omega)
    have hstream : ((builtIter (slicesOf regs) n 0).run
        (strideOf (slicesOf regs) * n)).1 = interleave (slicesOf regs) n := by
      rw [hrun]
      exact stream_eq_interleave (slicesOf regs) hpos' hne' n hcnt
    have hlen : ∀ m ∈ slicesOf regs, (v + 1) * m.2 ≤ m.1.length := by
      intro m hm
      have h1 := hcnt m hm
      have h2 : (v + 1) * m.2 ≤ n * m.2 := Nat.mul_le_mul_right _ (by omega)
      omega
    have hrecord : (((builtIter (slicesOf regs) n 0).run
          (strideOf (slicesOf regs) * n)).1.drop
            (v * strideOf (slicesOf regs))).take (strideOf (slicesOf regs)) =
        (slicesOf regs).flatMap
          (fun m => (m.1.drop (v * m.2)).take m.2) := by
      rw [hstream]
      exact interleave_record (slicesOf regs) n hcnt hv
    dsimp only
    rw [← strideOf_slicesOf]
    refine ⟨hrecord, ?_⟩
    intro i hi
    have hi' : i < (slicesOf regs).length := by
      rw [slicesOf_length]; exact hi
    have hdl : (builtIter (slicesOf regs) n 0).data_length =
        strideOf (slicesOf regs) * n := rfl
    rw [hdl, hrecord, membersFrom_getD_offset regs 0 i hi, Nat.zero_add]
    exact record_member_slice (slicesOf regs) v hlen i hi'

/-- Witness for C1: two members of sizes 2 and 1 over two vertices. -/
theorem claim_C1_witness :
    (∀ r ∈ [Reg.mk ⟨"a", ⟨some 1⟩⟩ [0, 1, 2, 3] 2,
            Reg.mk ⟨"b", ⟨some 1⟩⟩ [7, 8] 1], r.okb = true) ∧
    (∀ r ∈ [Reg.mk ⟨"a", ⟨some 1⟩⟩ [0, 1, 2, 3] 2,
            Reg.mk ⟨"b", ⟨some 1⟩⟩ [7, 8] 1], 0 < r.fieldSize) ∧
    ([Reg.mk ⟨"a", ⟨some 1⟩⟩ [0, 1, 2, 3] 2,
      Reg.mk ⟨"b", ⟨some 1⟩⟩ [7, 8] 1] ≠ ([] : List Reg)) ∧
    minCount (slicesOf [Reg.mk ⟨"a", ⟨some 1⟩⟩ [0, 1, 2, 3] 2,
      Reg.mk ⟨"b", ⟨some 1⟩⟩ [7, 8] 1]) = some 2 ∧
    (∃ b it info,
      addAll RuntimeVertexBuilder.new
        [Reg.mk ⟨"a", ⟨some 1⟩⟩ [0, 1, 2, 3] 2,
         Reg.mk ⟨"b", ⟨some 1⟩⟩ [7, 8] 1] = some b ∧
      b.build = some (it, info) ∧
      (it.run it.data_length).1 =
        interleave (slicesOf [Reg.mk ⟨"a", ⟨some 1⟩⟩ [0, 1, 2, 3] 2,
          Reg.mk ⟨"b", ⟨some 1⟩⟩ [7, 8] 1]) 2 ∧
      (∀ v, v < 2 →
        (((it.run it.data_length).1.drop (v * info.stride)).take
            info.stride =
          (slicesOf [Reg.mk ⟨"a", ⟨some 1⟩⟩ [0, 1, 2, 3] 2,
            Reg.mk ⟨"b", ⟨some 1⟩⟩ [7, 8] 1]).flatMap
            (fun m => (m.1.drop (v * m.2)).take m.2)) ∧
        (∀ i, i < [Reg.mk ⟨"a", ⟨some 1⟩⟩ [0, 1, 2, 3] 2,
            Reg.mk ⟨"b", ⟨some 1⟩⟩ [7, 8] 1].length →
          (((((it.run it.data_length).1.drop (v * info.stride)).take
                info.stride).drop
              ((b.members.getD i
                ("", { offset := 0, format := ⟨none⟩,
                       num_elements := 0 })).2.offset)).take
              ((slicesOf [Reg.mk ⟨"a", ⟨some 1⟩⟩ [0, 1, 2, 3] 2,
                Reg.mk ⟨"b", ⟨some 1⟩⟩ [7, 8] 1]).getD i ([], 0)).2) =
            (((slicesOf [Reg.mk ⟨"a", ⟨some 1⟩⟩ [0, 1, 2, 3] 2,
                Reg.mk ⟨"b", ⟨some 1⟩⟩ [7, 8] 1]).getD i ([], 0)).1.drop
                (v * ((slicesOf [Reg.mk ⟨"a", ⟨some 1⟩⟩ [0, 1, 2, 3] 2,
                  Reg.mk ⟨"b", ⟨some 1⟩⟩ [7, 8] 1]).getD i ([], 0)).2)).take
              ((slicesOf [Reg.mk ⟨"a", ⟨some 1⟩⟩ [0, 1, 2, 3] 2,
                Reg.mk ⟨"b", ⟨some 1⟩⟩ [7, 8] 1]).getD i ([], 0)).2))) :=
  ⟨by decide, by decide, by decide, by decide,
    claim_C1 _ (by decide) (by decide) (by decide) 2 (by decide)⟩

/-- Claim C2: for every finalized builder with at least one registered
attribute, the iterator yields exactly `stride * vertex_count` bytes,
where `vertex_count` is the minimum over all members of
`source_bytes.len() / field_size`; after the last byte every further
pull returns `none` and the iterator state stays unchanged (idempotent
exhaustion). -/
theorem claim_C2 (regs : List Reg) (hok : ∀ r ∈ regs, r.okb = true)
    (hpos : ∀ r ∈ regs, 0 < r.fieldSize) (hne : regs ≠ []) (n : Nat)
    (hmin : minCount (slicesOf regs) = some n) :
    ∃ b it info,
      addAll RuntimeVertexBuilder.new regs = some b ∧
      b.build = some (it, info) ∧
      it.data_length = info.stride * n ∧
      (∀ extra : Nat,
        ((it.run (it.data_length + extra)).1).length = info.stride * n ∧
        (it.run (it.data_length + extra)).2 = (it.run it.data_length).2 ∧
        (it.run (it.data_length + extra)).2.next = none) := by
  have hne' : slicesOf regs ≠ [] := by simpa [slicesOf] using hne
  have hpos' := slicesOf_pos regs hpos
  refine ⟨_, _, _, addAll_new regs hok, build_builtIter regs n hpos hmin,
    ?_, ?_⟩
  · dsimp only [builtIter]
    rw [strideOf_slicesOf]
  · intro extra
    have hL := run_builtIter (slicesOf regs) n hpos' hne'
      (strideOf (slicesOf regs) * n) 0 (by omega)
    have hdl : (builtIter (slicesOf regs) n 0).data_length =
        strideOf (slicesOf regs) * n := rfl
    have hend : (builtIter (slicesOf regs) n
        (0 + strideOf (slicesOf regs) * n)).next = none := by
      rw [Nat.zero_add]
      exact next_builtIter_end (slicesOf regs) n
    have hsplit := run_add (builtIter (slicesOf regs) n 0)
      (strideOf (slicesOf regs) * n) extra
    rw [hdl, hsplit, hL]
    dsimp only
    rw [run_of_next_none _ hend extra]
    refine ⟨?_, rfl, hend⟩
    rw [List.append_nil, List.length_map, List.length_range',
      strideOf_slicesOf]

/-- Witness for C2: two members of sizes 2 and 1 over two vertices. -/
theorem claim_C2_witness :
    (∀ r ∈ [Reg.mk ⟨"a", ⟨some 1⟩⟩ [0, 1, 2, 3] 2,
            Reg.mk ⟨"b", ⟨some 1⟩⟩ [7, 8] 1], r.okb = true) ∧
    (∀ r ∈ [Reg.mk ⟨"a", ⟨some 1⟩⟩ [0, 1, 2, 3] 2,
            Reg.mk ⟨"b", ⟨some 1⟩⟩ [7, 8] 1], 0 < r.fieldSize) ∧
    ([Reg.mk ⟨"a", ⟨some 1⟩⟩ [0, 1, 2, 3] 2,
      Reg.mk ⟨"b", ⟨some 1⟩⟩ [7, 8] 1] ≠ ([] : List Reg)) ∧
    minCount (slicesOf [Reg.mk ⟨"a", ⟨some 1⟩⟩ [0, 1, 2, 3] 2,
      Reg.mk ⟨"b", ⟨some 1⟩⟩ [7, 8] 1]) = some 2 ∧
    (∃ b it info,
      addAll RuntimeVertexBuilder.new
        [Reg.mk ⟨"a", ⟨some 1⟩⟩ [0, 1, 2, 3] 2,
         Reg.mk ⟨"b", ⟨some 1⟩⟩ [7, 8] 1] = some b ∧
      b.build = some (it, info) ∧
      it.data_length = info.stride * 2 ∧
      (∀ extra : Nat,
        ((it.run (it.data_length + extra)).1).length = info.stride * 2 ∧
        (it.run (it.data_length + extra)).2 = (it.run it.data_length).2 ∧
        (it.run (it.data_length + extra)).2.next = none)) :=
  ⟨by decide, by decide, by decide, by decide,
    claim_C2 _ (by decide) (by decide) (by decide) 2 (by decide)⟩

/-- Claim C6: for every iterator state reachable from a freshly built
iterator by repeated pulls, the member index selected by the
last-resolved-index cache (advanced by one, wrapping to zero, only when
the cached range no longer contains the current in-record offset)
equals the index of the unique member range containing
`data_index % stride`, so the cached strategy and a direct linear
search (`memberIdx`/`byteAt`) yield identical bytes on every pull. -/
theorem claim_C6 (regs : List Reg) (hok : ∀ r ∈ regs, r.okb = true)
    (hpos : ∀ r ∈ regs, 0 < r.fieldSize) (hne : regs ≠ []) (n : Nat)
    (hmin : minCount (slicesOf regs) = some n) :
    ∃ b it info,
      addAll RuntimeVertexBuilder.new regs = some b ∧
      b.build = some (it, info) ∧
      (∀ k, k < it.data_length →
        ((it.run k).2.data_index = k ∧
         cacheSelect (it.run k).2.member_ranges (it.run k).2.member_index
            (k % info.stride) =
          memberIdx (slicesOf regs) (k % info.stride)) ∧
        ((it.member_ranges.getD
            (memberIdx (slicesOf regs) (k % info.stride)) (0, 0)).1 ≤
            k % info.stride ∧
         k % info.stride <
          (it.member_ranges.getD
            (memberIdx (slicesOf regs) (k % info.stride)) (0, 0)).2) ∧
        (∀ j, j < it.member_ranges.length →
          (it.member_ranges.getD j (0, 0)).1 ≤ k % info.stride →
          k % info.stride < (it.member_ranges.getD j (0, 0)).2 →
          j = memberIdx (slicesOf regs) (k % info.stride)) ∧
        (it.run k).2.next =
          some (byteAt (slicesOf regs) (k / info.stride) (k % info.stride),
            (it.run (k + 1)).2)) := by
  have hne' : slicesOf regs ≠ [] := by simpa [slicesOf] using hne
  have hpos' := slicesOf_pos regs hpos
  refine ⟨_, _, _, addAll_new regs hok, build_builtIter regs n hpos hmin,
    ?_⟩
  intro k hk
  have hdl : (builtIter (slicesOf regs) n 0).data_length =
      strideOf (slicesOf regs) * n := rfl
  rw [hdl] at hk
  have hstride_eq : totalSize regs = strideOf (slicesOf regs) :=
    (strideOf_slicesOf regs).symm
  have hrunk := run_builtIter (slicesOf regs) n hpos' hne' k 0 (by omega)
  have hrunk1 := run_builtIter (slicesOf regs) n hpos' hne' (k + 1) 0
    (by omega)
  have hoffstride : k % totalSize regs = k % strideOf (slicesOf regs) := by
    rw [hstride_eq]
  have hstr : 0 < strideOf (slicesOf regs) :=
    strideOf_pos (slicesOf regs) hpos' hne'
  have hoff : k % strideOf (slicesOf regs) < strideOf (slicesOf regs) :=
    Nat.mod_lt _ hstr
  have hidx := memberIdx_lt (slicesOf regs) _ hoff
  have hspec := memberIdx_spec (slicesOf regs) _ hoff
  refine ⟨⟨?_, ?_⟩, ⟨?_, ?_⟩, ?_, ?_⟩
  · rw [hrunk]
    dsimp only [builtIter]
    omega
  · rw [hrunk]
    dsimp only [builtIter]
    rw [Nat.zero_add]
    rw [hoffstride]
    exact cacheIdx_resolves (slicesOf regs) k hpos' hne'
  · dsimp only [builtIter]
    rw [hoffstride, rangesFrom_getD (slicesOf regs) hidx 0]
    omega
  · dsimp only [builtIter]
    rw [hoffstride, rangesFrom_getD (slicesOf regs) hidx 0]
    omega
  · intro j hj h1 h2
    dsimp only [builtIter] at hj h1 h2 ⊢
    rw [rangesFrom_length] at hj
    rw [hoffstride] at h1 h2 ⊢
    have hrg := rangesFrom_getD (slicesOf regs) hj 0
    rw [hrg] at h1 h2
    dsimp only at h1 h2
    exact (memberIdx_eq_of (slicesOf regs) hj (by omega) (by omega)).symm
  · rw [hrunk, hrunk1]
    dsimp only
    rw [Nat.zero_add, Nat.zero_add]
    have hnext := next_builtIter (slicesOf regs) n hpos' hne' (k := k) hk
    rw [hnext, hoffstride]
    have hdivstride : k / totalSize regs = k / strideOf (slicesOf regs) := by
      rw [hstride_eq]
    rw [hdivstride]

/-- Witness for C6: two members of sizes 2 and 1 over two vertices. -/
theorem claim_C6_witness :
    (∀ r ∈ [Reg.mk ⟨"a", ⟨some 1⟩⟩ [0, 1, 2, 3] 2,
            Reg.mk ⟨"b", ⟨some 1⟩⟩ [7, 8] 1], r.okb = true) ∧
    (∀ r ∈ [Reg.mk ⟨"a", ⟨some 1⟩⟩ [0, 1, 2, 3] 2,
            Reg.mk ⟨"b", ⟨some 1⟩⟩ [7, 8] 1], 0 < r.fieldSize) ∧
    ([Reg.mk ⟨"a", ⟨some 1⟩⟩ [0, 1, 2, 3] 2,
      Reg.mk ⟨"b", ⟨some 1⟩⟩ [7, 8] 1] ≠ ([] : List Reg)) ∧
    minCount (slicesOf [Reg.mk ⟨"a", ⟨some 1⟩⟩ [0, 1, 2, 3] 2,
      Reg.mk ⟨"b", ⟨some 1⟩⟩ [7, 8] 1]) = some 2 ∧
    (∃ b it info,
      addAll RuntimeVertexBuilder.new
        [Reg.mk ⟨"a", ⟨some 1⟩⟩ [0, 1, 2, 3] 2,
         Reg.mk ⟨"b", ⟨some 1⟩⟩ [7, 8] 1] = some b ∧
      b.build = some (it, info) ∧
      (∀ k, k < it.data_length →
        ((it.run k).2.data_index = k ∧
         cacheSelect (it.run k).2.member_ranges (it.run k).2.member_index
            (k % info.stride) =
          memberIdx (slicesOf [Reg.mk ⟨"a", ⟨some 1⟩⟩ [0, 1, 2, 3] 2,
            Reg.mk ⟨"b", ⟨some 1⟩⟩ [7, 8] 1]) (k % info.stride)) ∧
        ((it.member_ranges.getD
            (memberIdx (slicesOf [Reg.mk ⟨"a", ⟨some 1⟩⟩ [0, 1, 2, 3] 2,
              Reg.mk ⟨"b", ⟨some 1⟩⟩ [7, 8] 1]) (k % info.stride)) (0, 0)).1 ≤
            k % info.stride ∧
         k % info.stride <
          (it.member_ranges.getD
            (memberIdx (slicesOf [Reg.mk ⟨"a", ⟨some 1⟩⟩ [0, 1, 2, 3] 2,
              Reg.mk ⟨"b", ⟨some 1⟩⟩ [7, 8] 1]) (k % info.stride)) (0, 0)).2) ∧
        (∀ j, j < it.member_ranges.length →
          (it.member_ranges.getD j (0, 0)).1 ≤ k % info.stride →
          k % info.stride < (it.member_ranges.getD j (0, 0)).2 →
          j = memberIdx (slicesOf [Reg.mk ⟨"a", ⟨some 1⟩⟩ [0, 1, 2, 3] 2,
            Reg.mk ⟨"b", ⟨some 1⟩⟩ [7, 8] 1]) (k % info.stride)) ∧
        (it.run k).2.next =
          some (byteAt (slicesOf [Reg.mk ⟨"a", ⟨some 1⟩⟩ [0, 1, 2, 3] 2,
              Reg.mk ⟨"b", ⟨some 1⟩⟩ [7, 8] 1])
              (k / info.stride) (k % info.stride),
            (it.run (k + 1)).2))) :=
  ⟨by decide, by decide, by decide, by decide,
    claim_C6 _ (by decide) (by decide) (by decide) 2 (by decide)⟩

/-- Claim C7: at every point during traversal the exposed
remaining-length equals the total length minus the number of bytes
pulled so far, and each successful pull yields exactly one byte and
decreases the remaining-length by exactly one. -/
theorem claim_C7 (regs : List Reg) (hok : ∀ r ∈ regs, r.okb = true)
    (hpos : ∀ r ∈ regs, 0 < r.fieldSize) (hne : regs ≠ []) (n : Nat)
    (hmin : minCount (slicesOf regs) = some n) :
    ∃ b it info,
      addAll RuntimeVertexBuilder.new regs = some b ∧
      b.build = some (it, info) ∧
      (∀ k, k ≤ it.data_length →
        (it.run k).1.length = k ∧
        (it.run k).2.remaining = it.data_length - k) ∧
      (∀ k, k < it.data_length →
        ∃ byte s', (it.run k).2.next = some (byte, s') ∧
          (it.run k).2.remaining = s'.remaining + 1) := by
  have hne' : slicesOf regs ≠ [] := by simpa [slicesOf] using hne
  have hpos' := slicesOf_pos regs hpos
  refine ⟨_, _, _, addAll_new regs hok, build_builtIter regs n hpos hmin,
    ?_, ?_⟩
  · intro k hk
    have hdl : (builtIter (slicesOf regs) n 0).data_length =
        strideOf (slicesOf regs) * n := rfl
    rw [hdl] at hk
    have hrunk := run_builtIter (slicesOf regs) n hpos' hne' k 0 (by omega)
    rw [hrunk]
    constructor
    · rw [List.length_map, List.length_range']
    · dsimp only [builtIter, RuntimeVertexIter.remaining]
      omega
  · intro k hk
    have hdl : (builtIter (slicesOf regs) n 0).data_length =
        strideOf (slicesOf regs) * n := rfl
    rw [hdl] at hk
    have hrunk := run_builtIter (slicesOf regs) n hpos' hne' k 0 (by omega)
    have hnext := next_builtIter (slicesOf regs) n hpos' hne' (k := k) hk
    refine ⟨byteAt (slicesOf regs) (k / strideOf (slicesOf regs))
        (k % strideOf (slicesOf regs)),
      builtIter (slicesOf regs) n (k + 1), ?_, ?_⟩
    · rw [hrunk]
      dsimp only
      rw [Nat.zero_add]
      exact hnext
    · rw [hrunk]
      dsimp only [builtIter, RuntimeVertexIter.remaining]
      omega

/-- Witness for C7: two members of sizes 2 and 1 over two vertices. -/
theorem claim_C7_witness :
    (∀ r ∈ [Reg.mk ⟨"a", ⟨some 1⟩⟩ [0, 1, 2, 3] 2,
            Reg.mk ⟨"b", ⟨some 1⟩⟩ [7, 8] 1], r.okb = true) ∧
    (∀ r ∈ [Reg.mk ⟨"a", ⟨some 1⟩⟩ [0, 1, 2, 3] 2,
            Reg.mk ⟨"b", ⟨some 1⟩⟩ [7, 8] 1], 0 < r.fieldSize) ∧
    ([Reg.mk ⟨"a", ⟨some 1⟩⟩ [0, 1, 2, 3] 2,
      Reg.mk ⟨"b", ⟨some 1⟩⟩ [7, 8] 1] ≠ ([] : List Reg)) ∧
    minCount (slicesOf [Reg.mk ⟨"a", ⟨some 1⟩⟩ [0, 1, 2, 3] 2,
      Reg.mk ⟨"b", ⟨some 1⟩⟩ [7, 8] 1]) = some 2 ∧
    (∃ b it info,
      addAll RuntimeVertexBuilder.new
        [Reg.mk ⟨"a", ⟨some 1⟩⟩ [0, 1, 2, 3] 2,
         Reg.mk ⟨"b", ⟨some 1⟩⟩ [7, 8] 1] = some b ∧
      b.build = some (it, info) ∧
      (∀ k, k ≤ it.data_length →
        (it.run k).1.length = k ∧
        (it.run k).2.remaining = it.data_length - k) ∧
      (∀ k, k < it.data_length →
        ∃ byte s', (it.run k).2.next = some (byte, s') ∧
          (it.run k).2.remaining = s'.remaining + 1)) :=
  ⟨by decide, by decide, by decide, by decide,
    claim_C7 _ (by decide) (by decide) (by decide) 2 (by decide)⟩

/-- Counterexample for claim C4: with per-member vertex counts 2 and 1
(mismatched), `build` does not report any failure value — it succeeds
and emits the one-vertex truncated byte sequence `[10, 20]`. -/
theorem claim_C4_counterexample :
    ((addAll RuntimeVertexBuilder.new
        [Reg.mk ⟨"a", ⟨some 1⟩⟩ [10, 11] 1,
         Reg.mk ⟨"b", ⟨some 1⟩⟩ [20] 1]).bind
      RuntimeVertexBuilder.build).map
        (fun p => (p.1.run p.1.data_length).1) = some [10, 20] := by
  decide

/-- Claim C4 (amended): when the per-member vertex counts disagree,
`build` does not report a `VertexCountMismatch` failure value; it
silently takes the minimum count `n` over all members and emits the
full truncated `stride * n`-byte sequence (the source marks this with
`TODO: return Result instead!`). -/
theorem claim_C4_amended (regs : List Reg) (hok : ∀ r ∈ regs, r.okb = true)
    (hpos : ∀ r ∈ regs, 0 < r.fieldSize) (hne : regs ≠ []) (n : Nat)
    (hmin : minCount (slicesOf regs) = some n)
    (hmismatch : ∃ m1, m1 ∈ slicesOf regs ∧ ∃ m2, m2 ∈ slicesOf regs ∧
      m1.1.length / m1.2 ≠ m2.1.length / m2.2) :
    ∃ b it info,
      addAll RuntimeVertexBuilder.new regs = some b ∧
      b.build = some (it, info) ∧
      (it.run it.data_length).1.length = info.stride * n ∧
      (it.run it.data_length).1 = interleave (slicesOf regs) n := by
  have hne' : slicesOf regs ≠ [] := by simpa [slicesOf] using hne
  have hpos' := slicesOf_pos regs hpos
  have hcnt := minCount_le (slicesOf regs) hmin hpos'
  refine ⟨_, _, _, addAll_new regs hok, build_builtIter regs n hpos hmin,
    ?_, ?_⟩
  · have hrun := run_builtIter (slicesOf regs) n hpos' hne'
      (strideOf (slicesOf regs) * n) 0 (by omega)
    have hdl : (builtIter (slicesOf regs) n 0).data_length =
        strideOf (slicesOf regs) * n := rfl
    rw [hdl, hrun]
    dsimp only
    rw [List.length_map, List.length_range', strideOf_slicesOf]
  · have hrun := run_builtIter (slicesOf regs) n hpos' hne'
      (strideOf (slicesOf regs) * n) 0 (by omega)
    have hdl : (builtIter (slicesOf regs) n 0).data_length =
        strideOf (slicesOf regs) * n := rfl
    rw [hdl, hrun]
    exact stream_eq_interleave (slicesOf regs) hpos' hne' n hcnt

/-- Witness for the amended C4: counts 2 and 1 disagree, the minimum 1
is taken and a full one-vertex sequence is produced. -/
theorem claim_C4_amended_witness :
    (∀ r ∈ [Reg.mk ⟨"a", ⟨some 1⟩⟩ [10, 11] 1,
            Reg.mk ⟨"b", ⟨some 1⟩⟩ [20] 1], r.okb = true) ∧
    (∀ r ∈ [Reg.mk ⟨"a", ⟨some 1⟩⟩ [10, 11] 1,
            Reg.mk ⟨"b", ⟨some 1⟩⟩ [20] 1], 0 < r.fieldSize) ∧
    ([Reg.mk ⟨"a", ⟨some 1⟩⟩ [10, 11] 1,
      Reg.mk ⟨"b", ⟨some 1⟩⟩ [20] 1] ≠ ([] : List Reg)) ∧
    minCount (slicesOf [Reg.mk ⟨"a", ⟨some 1⟩⟩ [10, 11] 1,
      Reg.mk ⟨"b", ⟨some 1⟩⟩ [20] 1]) = some 1 ∧
    (∃ m1, m1 ∈ slicesOf [Reg.mk ⟨"a", ⟨some 1⟩⟩ [10, 11] 1,
        Reg.mk ⟨"b", ⟨some 1⟩⟩ [20] 1] ∧
      ∃ m2, m2 ∈ slicesOf [Reg.mk ⟨"a", ⟨some 1⟩⟩ [10, 11] 1,
        Reg.mk ⟨"b", ⟨some 1⟩⟩ [20] 1] ∧
        m1.1.length / m1.2 ≠ m2.1.length / m2.2) ∧
    (∃ b it info,
      addAll RuntimeVertexBuilder.new
        [Reg.mk ⟨"a", ⟨some 1⟩⟩ [10, 11] 1,
         Reg.mk ⟨"b", ⟨some 1⟩⟩ [20] 1] = some b ∧
      b.build = some (it, info) ∧
      (it.run it.data_length).1.length = info.stride * 1 ∧
      (it.run it.data_length).1 =
        interleave (slicesOf [Reg.mk ⟨"a", ⟨some 1⟩⟩ [10, 11] 1,
          Reg.mk ⟨"b", ⟨some 1⟩⟩ [20] 1]) 1) :=
  ⟨by decide, by decide, by decide, by decide,
    ⟨([10, 11], 1), by decide, ([20], 1), by decide, by decide⟩,
    claim_C4_amended _ (by decide) (by decide) (by decide) 1 (by decide)
      ⟨([10, 11], 1), by decide, ([20], 1), by decide, by decide⟩⟩

/-- The number of bytes of one record that a descriptor member covers:
its element count times the format's byte size. -/
def memberByteSize (m : VertexMemberInfo) : Nat :=
  m.num_elements * m.format.blockSize.getD 0

/-- Claim C9: if two registered attributes share the same name, the
finalized descriptor's members map keeps only one entry for that name —
the later registration's offset, format and element count — while the
stride and the emitted byte stream still include both registrations, so
the descriptor's member ranges no longer cover every byte of the
record. -/
theorem claim_C9 (r1 r2 : Reg) (hname : r1.attr.name = r2.attr.name)
    (hok : ∀ r ∈ [r1, r2], r.okb = true)
    (hpos : ∀ r ∈ [r1, r2], 0 < r.fieldSize) (n : Nat)
    (hmin : minCount (slicesOf [r1, r2]) = some n) :
    ∃ b it info,
      addAll RuntimeVertexBuilder.new [r1, r2] = some b ∧
      b.build = some (it, info) ∧
      info.members = [(r2.attr.name,
        { offset := r1.fieldSize, format := r2.attr.format,
          num_elements :=
            r2.fieldSize / (r2.attr.format.blockSize.getD 0) })] ∧
      info.stride = r1.fieldSize + r2.fieldSize ∧
      (it.run it.data_length).1.length = info.stride * n ∧
      (it.run it.data_length).1 = interleave (slicesOf [r1, r2]) n ∧
      (∃ off, off < info.stride ∧ ∀ mem ∈ info.members,
        ¬ (mem.2.offset ≤ off ∧
            off < mem.2.offset + memberByteSize mem.2)) := by
  have hne : ([r1, r2] : List Reg) ≠ [] := by simp
  have hne' : slicesOf [r1, r2] ≠ [] := by simp [slicesOf]
  have hpos' := slicesOf_pos [r1, r2] hpos
  have hcnt := minCount_le (slicesOf [r1, r2]) hmin hpos'
  have hpos1 := hpos r1 (by simp)
  have hpos2 := hpos r2 (by simp)
  have hmembers : collectMembers (membersFrom 0 [r1, r2]) =
      [(r2.attr.name,
        { offset := r1.fieldSize, format := r2.attr.format,
          num_elements :=
            r2.fieldSize / (r2.attr.format.blockSize.getD 0) })] := by
    simp [collectMembers, membersFrom, mapInsert, hname]
  have hstride : totalSize [r1, r2] = r1.fieldSize + r2.fieldSize := by
    simp [totalSize]
  refine ⟨_, _, _, addAll_new [r1, r2] hok,
    build_builtIter [r1, r2] n hpos hmin, ?_, ?_, ?_, ?_, ?_⟩
  · exact hmembers
  · exact hstride
  · have hrun := run_builtIter (slicesOf [r1, r2]) n hpos' hne'
      (strideOf (slicesOf [r1, r2]) * n) 0 (by omega)
    have hdl : (builtIter (slicesOf [r1, r2]) n 0).data_length =
        strideOf (slicesOf [r1, r2]) * n := rfl
    rw [hdl, hrun]
    dsimp only
    rw [List.length_map, List.length_range', strideOf_slicesOf]
  · have hrun := run_builtIter (slicesOf [r1, r2]) n hpos' hne'
      (strideOf (slicesOf [r1, r2]) * n) 0 (by omega)
    have hdl : (builtIter (slicesOf [r1, r2]) n 0).data_length =
        strideOf (slicesOf [r1, r2]) * n := rfl
    rw [hdl, hrun]
    exact stream_eq_interleave (slicesOf [r1, r2]) hpos' hne' n hcnt
  · refine ⟨0, ?_, ?_⟩
    · dsimp only
      rw [hstride]
      omega
    · intro mem hmem
      rw [hmembers] at hmem
      simp only [List.mem_singleton] at hmem
      subst hmem
      dsimp only
      omega

/-- Witness for C9: two same-named members of sizes 2 and 1 over two
vertices. -/
theorem claim_C9_witness :
    ((Reg.mk ⟨"dup", ⟨some 1⟩⟩ [0, 1, 2, 3] 2).attr.name =
      (Reg.mk ⟨"dup", ⟨some 1⟩⟩ [7, 8] 1).attr.name) ∧
    (∀ r ∈ [Reg.mk ⟨"dup", ⟨some 1⟩⟩ [0, 1, 2, 3] 2,
            Reg.mk ⟨"dup", ⟨some 1⟩⟩ [7, 8] 1], r.okb = true) ∧
    (∀ r ∈ [Reg.mk ⟨"dup", ⟨some 1⟩⟩ [0, 1, 2, 3] 2,
            Reg.mk ⟨"dup", ⟨some 1⟩⟩ [7, 8] 1], 0 < r.fieldSize) ∧
    minCount (slicesOf [Reg.mk ⟨"dup", ⟨some 1⟩⟩ [0, 1, 2, 3] 2,
      Reg.mk ⟨"dup", ⟨some 1⟩⟩ [7, 8] 1]) = some 2 ∧
    (∃ b it info,
      addAll RuntimeVertexBuilder.new
        [Reg.mk ⟨"dup", ⟨some 1⟩⟩ [0, 1, 2, 3] 2,
         Reg.mk ⟨"dup", ⟨some 1⟩⟩ [7, 8] 1] = some b ∧
      b.build = some (it, info) ∧
      info.members = [("dup",
        { offset := 2, format := ⟨some 1⟩, num_elements := 1 / 1 })] ∧
      info.stride = 2 + 1 ∧
      (it.run it.data_length).1.length = info.stride * 2 ∧
      (it.run it.data_length).1 =
        interleave (slicesOf [Reg.mk ⟨"dup", ⟨some 1⟩⟩ [0, 1, 2, 3] 2,
          Reg.mk ⟨"dup", ⟨some 1⟩⟩ [7, 8] 1]) 2 ∧
      (∃ off, off < info.stride ∧ ∀ mem ∈ info.members,
        ¬ (mem.2.offset ≤ off ∧
            off < mem.2.offset + memberByteSize mem.2))) :=
  ⟨rfl, by decide, by decide, by decide,
    claim_C9 (Reg.mk ⟨"dup", ⟨some 1⟩⟩ [0, 1, 2, 3] 2)
      (Reg.mk ⟨"dup", ⟨some 1⟩⟩ [7, 8] 1) rfl (by decide) (by decide) 2
      (by decide)⟩

end VulkanoRuntime
